import Mathlib

/-! Shallow embedding of the simulated-annealing VLSI placement engine of
run.py: module catalog, cost function, move generator and the annealing
loop.  All random draws are made explicit inputs; costs and temperatures
are modelled over the exact rationals (every numeric value the program
manipulates is a small dyadic rational, so this is faithful), while the
uniform draw compared against the Metropolis exponential is a real
number and the acceptance test is stated as a relation. -/

namespace VLSISA

/-- Fixed inputs of a run: the module catalog (name, width, height), the
net list and the chip dimensions, mirroring the globals `modules`,
`nets`, `CHIP_W`, `CHIP_H` of run.py. -/
structure Config where
  mods : List (String × ℕ × ℕ)
  nets : List (String × String)
  chipW : ℕ
  chipH : ℕ

/-- A placement: one (x, y) bottom-left coordinate per module, kept in
the catalog's insertion order (Python dict iteration order). -/
abbrev Placement := List (String × ℤ × ℤ)

/-- Association-list lookup, modelling Python dict indexing. -/
def alookup {α : Type} : List (String × α) → String → Option α
  | [], _ => none
  | e :: rest, m => if e.1 = m then some e.2 else alookup rest m

/-- Size of a module as read from the catalog (`modules[m]`). -/
def msize (cfg : Config) (m : String) : ℕ × ℕ :=
  (alookup cfg.mods m).getD (0, 0)

/-- Position of a module in a placement (`placement[m]`). -/
def mpos (p : Placement) (m : String) : ℤ × ℤ :=
  (alookup p m).getD (0, 0)

/-- Center of a module rectangle: position plus half-size, with exact
half-sizes (`(xa + wa/2, ya + ha/2)` in run.py, lines 73-74). -/
def center (xy : ℤ × ℤ) (wh : ℕ × ℕ) : ℚ × ℚ :=
  ((xy.1 : ℚ) + (wh.1 : ℚ) / 2, (xy.2 : ℚ) + (wh.2 : ℚ) / 2)

/-- Wirelength contribution of one net: Manhattan distance between the
centers of its two modules (run.py line 75). -/
def netWL (cfg : Config) (p : Placement) (ab : String × String) : ℚ :=
  let ca := center (mpos p ab.1) (msize cfg ab.1)
  let cb := center (mpos p ab.2) (msize cfg ab.2)
  |ca.1 - cb.1| + |ca.2 - cb.2|

/-- Total wirelength: the `wl +=` accumulation over the net list
(run.py lines 66-75). -/
def wirelength (cfg : Config) (p : Placement) : ℚ :=
  cfg.nets.foldl (fun acc ab => acc + netWL cfg p ab) 0

/-- The overlap test of run.py line 90:
`not (x1+w1 <= x2 or x2+w2 <= x1 or y1+h1 <= y2 or y2+h2 <= y1)`. -/
def rectOverlap (x1 y1 : ℤ) (w1 h1 : ℕ) (x2 y2 : ℤ) (w2 h2 : ℕ) : Bool :=
  !(decide (x1 + (w1 : ℤ) ≤ x2) || decide (x2 + (w2 : ℤ) ≤ x1) ||
    decide (y1 + (h1 : ℤ) ≤ y2) || decide (y2 + (h2 : ℤ) ≤ y1))

/-- Overlap test on two placement entries, with sizes read from the
catalog as in run.py lines 82-90. -/
def entOverlap (cfg : Config) (e1 e2 : String × ℤ × ℤ) : Bool :=
  rectOverlap e1.2.1 e1.2.2 (msize cfg e1.1).1 (msize cfg e1.1).2
    e2.2.1 e2.2.2 (msize cfg e2.1).1 (msize cfg e2.1).2

/-- Inner loop of the overlap penalty: `for j in range(i+1, n)`, adding
10 for each overlapping pair (run.py lines 85-91). -/
def overlapRow (cfg : Config) (e : String × ℤ × ℤ) (rest : Placement) : ℚ :=
  rest.foldl (fun acc e2 => if entOverlap cfg e e2 then acc + 10 else acc) 0

/-- Outer loop of the overlap penalty: `for i in range(n)` over the
placement items (run.py lines 80-91). -/
def overlapTerm (cfg : Config) : Placement → ℚ
  | [] => 0
  | e :: rest => overlapRow cfg e rest + overlapTerm cfg rest

/-- Cost of a placement: wirelength plus overlap penalty
(run.py line 92: `return wl + overlap`). -/
def cost (cfg : Config) (p : Placement) : ℚ :=
  wirelength cfg p + overlapTerm cfg p

/-- `random.randint(0, hi)` for a draw `d`: raises `ValueError` (here:
`none`) when the range is empty (`hi < 0`); otherwise any value in
`[0, hi]` can be produced, modelled by reducing the draw modulo
`hi + 1`. -/
def randint (hi : ℤ) (d : ℕ) : Option ℤ :=
  if hi < 0 then none else some ((d : ℤ) % (hi + 1))

/-- The loop body of `random_placement` (run.py lines 45-49): place each
module in catalog order at freshly drawn coordinates.  Returns the list
of modules placed before any failure together with an error flag
(`true` when some `randint` raised because the module does not fit). -/
def placeLoop (cfg : Config) (d : ℕ → ℕ × ℕ) :
    List (String × ℕ × ℕ) → ℕ → Placement × Bool
  | [], _ => ([], false)
  | e :: rest, i =>
    match randint ((cfg.chipW : ℤ) - e.2.1) (d i).1,
          randint ((cfg.chipH : ℤ) - e.2.2) (d i).2 with
    | some x, some y =>
      let r := placeLoop cfg d rest (i + 1)
      ((e.1, (x, y)) :: r.1, r.2)
    | _, _ => ([], true)

/-- `random_placement(mods)` of run.py lines 33-51: `none` when some
`randint` call raised, otherwise the full placement. -/
def random_placement (cfg : Config) (d : ℕ → ℕ × ℕ) : Option Placement :=
  let r := placeLoop cfg d cfg.mods 0
  if r.2 then none else some r.1

/-- The random draws consumed by one loop iteration of
`simulated_annealing`: the module choice, the two coordinate draws of
`random_move`, and the uniform draw of `random.random()`. -/
structure IterRand where
  pick : ℕ
  dx : ℕ
  dy : ℕ
  u : ℝ

/-- Python dict assignment `new_place[m] = xy`: replace the value when
the key is present (keeping its position), append otherwise. -/
def dictInsert (p : Placement) (m : String) (xy : ℤ × ℤ) : Placement :=
  if (alookup p m).isSome then
    p.map (fun e => if e.1 = m then (e.1, xy) else e)
  else
    p ++ [(m, xy)]

/-- `random_move(placement)` of run.py lines 95-112: copy the placement
and move one randomly chosen module to freshly drawn coordinates.
`none` models the `ValueError` raised by `randint` when the chosen
module does not fit (and the `IndexError` of `random.choice` on an
empty catalog). -/
def random_move (cfg : Config) (p : Placement) (r : IterRand) :
    Option Placement :=
  (cfg.mods.get? (r.pick % cfg.mods.length)).bind fun e =>
    (randint ((cfg.chipW : ℤ) - e.2.1) r.dx).bind fun x =>
      (randint ((cfg.chipH : ℤ) - e.2.2) r.dy).map fun y =>
        dictInsert p e.1 (x, y)

/-- The working state of `simulated_annealing` (run.py lines 161-166):
current placement, best placement, best cost, temperature and the
best-cost history. -/
structure SAState where
  placement : Placement
  best : Placement
  bestCost : ℚ
  T : ℚ
  history : List ℚ

/-- The state set up by run.py lines 161-166 from the initial random
placement: current = best = the draw, best cost its cost, temperature
`T_start`, empty history. -/
def initState (cfg : Config) (Tstart : ℚ) (p : Placement) : SAState :=
  { placement := p, best := p, bestCost := cost cfg p, T := Tstart,
    history := [] }

/-- The deterministic tail of one loop iteration (run.py lines 174-181),
after the acceptance decision: install the candidate if accepted, update
best placement and best cost when the current cost strictly improves,
append the best cost to the history, multiply the temperature by the
cooling factor. -/
def applyIter (cfg : Config) (cooling : ℚ) (s : SAState) (np : Placement)
    (accepted : Bool) : SAState :=
  let p := if accepted then np else s.placement
  if cost cfg p < s.bestCost then
    { placement := p, best := p, bestCost := cost cfg p,
      T := s.T * cooling, history := s.history ++ [cost cfg p] }
  else
    { placement := p, best := s.best, bestCost := s.bestCost,
      T := s.T * cooling, history := s.history ++ [s.bestCost] }

/-- Result of one loop iteration: a new state, or an uncaught Python
exception (`ValueError` from `randint`, `ZeroDivisionError` from the
Metropolis test at `T = 0`). -/
inductive StepRes where
  | ok (s : SAState)
  | err

/-- One iteration of the loop of run.py lines 168-181, as a relation
between the incoming state and the result, given the iteration's random
draws.  The constructors follow the evaluation order of
`if c_new < c_old or random.random() < math.exp((c_old - c_new)/T)`:
the `or` short-circuits, so the exponential (and the division by `T`)
is only evaluated when the candidate does not strictly improve. -/
inductive Step (cfg : Config) (cooling : ℚ) (r : IterRand) (s : SAState) :
    StepRes → Prop
  | moveErr :
      random_move cfg s.placement r = none →
      Step cfg cooling r s .err
  | improve (np : Placement) :
      random_move cfg s.placement r = some np →
      cost cfg np < cost cfg s.placement →
      Step cfg cooling r s (.ok (applyIter cfg cooling s np true))
  | expErr (np : Placement) :
      random_move cfg s.placement r = some np →
      ¬ cost cfg np < cost cfg s.placement →
      s.T = 0 →
      Step cfg cooling r s .err
  | metAcc (np : Placement) :
      random_move cfg s.placement r = some np →
      ¬ cost cfg np < cost cfg s.placement →
      s.T ≠ 0 →
      r.u < Real.exp
        (((cost cfg s.placement - cost cfg np) / s.T : ℚ) : ℝ) →
      Step cfg cooling r s (.ok (applyIter cfg cooling s np true))
  | metRej (np : Placement) :
      random_move cfg s.placement r = some np →
      ¬ cost cfg np < cost cfg s.placement →
      s.T ≠ 0 →
      ¬ r.u < Real.exp
        (((cost cfg s.placement - cost cfg np) / s.T : ℚ) : ℝ) →
      Step cfg cooling r s (.ok (applyIter cfg cooling s np false))

/-- A run of the loop: a sequence of successful iterations, one per
element of the list of per-iteration draws. -/
inductive Run (cfg : Config) (cooling : ℚ) : SAState → List IterRand → SAState → Prop
  | nil (s : SAState) : Run cfg cooling s [] s
  | cons {s s1 s2 : SAState} {r : IterRand} {rs : List IterRand} :
      Step cfg cooling r s (.ok s1) → Run cfg cooling s1 rs s2 →
      Run cfg cooling s (r :: rs) s2

/-- The acceptance condition exactly as the specification states it:
accept when `cost_new < cost_old`, or — when `cost_new ≥ cost_old` —
when the uniform draw is strictly below
`exp((cost_old - cost_new) / T)`. -/
def acceptSpec (cOld cNew T : ℚ) (u : ℝ) : Prop :=
  cNew < cOld ∨
    (cOld ≤ cNew ∧ u < Real.exp (((cOld - cNew) / T : ℚ) : ℝ))

/-- Manhattan distance between two rational points. -/
def manhattanQ (a b : ℚ × ℚ) : ℚ := |a.1 - b.1| + |a.2 - b.2|

/-- Wirelength as the specification words it: the sum over all nets of
the Manhattan distance between the two rectangle centers. -/
def specWirelength (cfg : Config) (p : Placement) : ℚ :=
  (cfg.nets.map (fun ab =>
    manhattanQ (center (mpos p ab.1) (msize cfg ab.1))
      (center (mpos p ab.2) (msize cfg ab.2)))).sum

/-- Count of related pairs taken in the source's `i < j` double-loop
order. -/
def pairCount {α : Type} (Q : α → α → Bool) : List α → ℕ
  | [] => 0
  | a :: t => t.countP (Q a) + pairCount Q t

/-- Number of unordered pairs of distinct placement entries whose
rectangles overlap, each pair counted exactly once (formalised as the
pairs of positions `i < j`). -/
def specOverlapCount (cfg : Config) (p : Placement) : ℕ :=
  (Finset.univ.filter (fun ij : Fin p.length × Fin p.length =>
    ij.1 < ij.2 ∧ entOverlap cfg (p.get ij.1) (p.get ij.2) = true)).card

/-- Cost as the specification words it: wirelength plus 10 per
overlapping unordered pair. -/
def specCost (cfg : Config) (p : Placement) : ℚ :=
  specWirelength cfg p + 10 * (specOverlapCount cfg p : ℚ)

/-- A coordinate is in bounds for module `m` when the module's rectangle
lies fully inside the chip. -/
def InBounds (cfg : Config) (m : String) (xy : ℤ × ℤ) : Prop :=
  0 ≤ xy.1 ∧ xy.1 ≤ (cfg.chipW : ℤ) - (msize cfg m).1 ∧
  0 ≤ xy.2 ∧ xy.2 ≤ (cfg.chipH : ℤ) - (msize cfg m).2

/-- Well-formed placement: exactly one entry per catalog module (in
catalog order) and every entry in bounds for its module's size. -/
def WF (cfg : Config) (p : Placement) : Prop :=
  p.map Prod.fst = cfg.mods.map Prod.fst ∧
  ∀ e ∈ p, InBounds cfg e.1 e.2

/-- Well-formed search state: current and best placements both
well-formed. -/
def WFState (cfg : Config) (s : SAState) : Prop :=
  WF cfg s.placement ∧ WF cfg s.best

/-- Some module of the catalog does not fit on the chip. -/
def Oversized (cfg : Config) : Prop :=
  ∃ e ∈ cfg.mods, cfg.chipW < e.2.1 ∨ cfg.chipH < e.2.2

/-- The concrete module catalog, net list and chip dimensions hardcoded
in run.py lines 7-30. -/
def defaultConfig : Config :=
  { mods := [("A", (2, 3)), ("B", (3, 2)), ("C", (2, 2)), ("D", (1, 4)),
             ("E", (3, 3)), ("F", (2, 4)), ("G", (4, 2)), ("H", (2, 3)),
             ("I", (3, 1)), ("J", (2, 2))],
    nets := [("A", "B"), ("A", "C"), ("B", "D"), ("C", "D"), ("E", "F"),
             ("F", "G"), ("G", "H"), ("H", "I"), ("I", "J"), ("E", "A"),
             ("B", "F"), ("C", "H"), ("D", "J")],
    chipW := 20, chipH := 20 }

/-- One-module test configuration: a 1×1 module on a 1×1 chip, no nets,
so every placement has cost 0 and every move is forced to (0, 0). -/
def wcfg1 : Config :=
  { mods := [("A", (1, 1))], nets := [], chipW := 1, chipH := 1 }

/-- The unique placement of `wcfg1`. -/
def wp1 : Placement := [("A", (0, 0))]

/-- Draws whose uniform component is 0, hence below any positive
acceptance probability. -/
def rAcc : IterRand := { pick := 0, dx := 0, dy := 0, u := 0 }

/-- Draws whose uniform component is 1, hence not below an acceptance
probability of `exp 0 = 1`. -/
def rRej : IterRand := { pick := 0, dx := 0, dy := 0, u := 1 }

/-- The all-zero coordinate draw stream. -/
def dZero : ℕ → ℕ × ℕ := fun _ => (0, 0)

/-- Two-module configuration for the wirelength example of the spec:
both modules 2×2, one net between them. -/
def exCfg2 : Config :=
  { mods := [("M1", (2, 2)), ("M2", (2, 2))], nets := [("M1", "M2")],
    chipW := 20, chipH := 20 }

/-- Placement of the wirelength example: centers (1,1) and (5,1). -/
def exP2 : Placement := [("M1", (0, 0)), ("M2", (4, 0))]

/-- Two-module configuration for the overlap examples of the spec. -/
def exCfg3 : Config :=
  { mods := [("M1", (2, 2)), ("M2", (2, 2))], nets := [],
    chipW := 20, chipH := 20 }

/-- Touching placement: rectangles at (0,0) and (2,0), edge-adjacent. -/
def pTouch : Placement := [("M1", (0, 0)), ("M2", (2, 0))]

/-- Colliding placement: rectangles at (0,0) and (1,0). -/
def pColl : Placement := [("M1", (0, 0)), ("M2", (1, 0))]

/-- Two-module configuration whose second module is wider than the
chip, for the oversized-module claim. -/
def cfg9 : Config :=
  { mods := [("A", (1, 1)), ("B", (30, 1))], nets := [],
    chipW := 20, chipH := 20 }

/-- History invariant of the annealing loop: the recorded best costs are
non-increasing and the current best cost is below all of them. -/
def HistInv (s : SAState) : Prop :=
  List.Chain' (fun a b => b ≤ a) s.history ∧ ∀ x ∈ s.history, s.bestCost ≤ x

/-- The placement of `defaultConfig` produced by the all-zero draws:
every module at (0, 0). -/
def pD : Placement :=
  [("A", (0, 0)), ("B", (0, 0)), ("C", (0, 0)), ("D", (0, 0)),
   ("E", (0, 0)), ("F", (0, 0)), ("G", (0, 0)), ("H", (0, 0)),
   ("I", (0, 0)), ("J", (0, 0))]

/-- Draws picking module index 1 (module B) and coordinates (3, 4). -/
def r6 : IterRand := { pick := 1, dx := 3, dy := 4, u := 0 }

/-- `pD` with module B moved to (3, 4). -/
def pD2 : Placement :=
  [("A", (0, 0)), ("B", (3, 4)), ("C", (0, 0)), ("D", (0, 0)),
   ("E", (0, 0)), ("F", (0, 0)), ("G", (0, 0)), ("H", (0, 0)),
   ("I", (0, 0)), ("J", (0, 0))]

/-- State after one accepted iteration of the one-module run with
cooling factor 1. -/
def c4s1 : SAState := applyIter wcfg1 1 (initState wcfg1 100 wp1) wp1 true

/-- State after two accepted iterations of the one-module run with
cooling factor 1. -/
def c4s2 : SAState := applyIter wcfg1 1 c4s1 wp1 true

/-- Start state of the cooling-0 run on the one-module configuration. -/
def c8s0 : SAState := initState wcfg1 100 wp1

/-- State after the first iteration of the cooling-0 run: the rejection
kept the placement and the temperature collapsed to 100 * 0. -/
def c8s1 : SAState := applyIter wcfg1 0 c8s0 wp1 false

/-- A state of the one-module configuration whose temperature is the
literal 0, as reached after one iteration with cooling factor 0. -/
def c8sT0 : SAState :=
  { placement := wp1, best := wp1, bestCost := 0, T := 0, history := [0] }

theorem foldl_add_sum {α : Type} (f : α → ℚ) (l : List α) (a : ℚ) :
    l.foldl (fun acc x => acc + f x) a = a + (l.map f).sum := by
  induction l generalizing a with
  | nil => simp
  | cons x t ih => simp [ih, add_assoc]

theorem foldl_ite_add {α : Type} (P : α → Bool) (l : List α) (a : ℚ) :
    l.foldl (fun acc x => if P x then acc + 10 else acc) a
      = a + 10 * (l.countP P : ℚ) := by
  induction l generalizing a with
  | nil => simp
  | cons x t ih =>
    by_cases h : P x
    · simp only [List.foldl_cons, List.countP_cons, h, if_true]
      rw [ih]
      push_cast
      ring
    · simp only [List.foldl_cons, List.countP_cons, h, if_false]
      rw [ih]
      simp

theorem countP_sum_fin {α : Type} (l : List α) (P : α → Bool) :
    (∑ j : Fin l.length, if P (l.get j) then 1 else 0) = l.countP P := by
  induction l with
  | nil => simp
  | cons x t ih =>
    simp only [List.length_cons]
    rw [Fin.sum_univ_succ]
    simp only [List.get_eq_getElem, Fin.val_succ, List.getElem_cons_succ,
      Fin.val_zero, List.getElem_cons_zero, List.countP_cons]
    simp only [List.get_eq_getElem] at ih
    rw [ih]
    by_cases h : P x <;> simp [h, add_comm]

theorem double_sum_pairs {α : Type} (l : List α) (Q : α → α → Bool) :
    (∑ i : Fin l.length, ∑ j : Fin l.length,
      if i < j ∧ Q (l.get i) (l.get j) = true then 1 else 0)
      = pairCount Q l := by
  induction l with
  | nil => simp [pairCount]
  | cons x t ih =>
    simp only [List.length_cons]
    rw [Fin.sum_univ_succ]
    simp only [pairCount]
    have h0 : (∑ j : Fin (t.length + 1),
        if (0 : Fin (t.length + 1)) < j ∧
            Q ((x :: t).get (0 : Fin (t.length + 1)))
              ((x :: t).get j) = true then 1 else 0)
        = t.countP (Q x) := by
      rw [Fin.sum_univ_succ]
      simp only [lt_self_iff_false, false_and, if_false, Fin.succ_pos,
        true_and, List.get_eq_getElem, Fin.val_succ, Fin.val_zero,
        List.getElem_cons_succ, List.getElem_cons_zero, zero_add]
      have hc := countP_sum_fin t (Q x)
      simp only [List.get_eq_getElem] at hc
      exact hc
    have hs : ∀ i : Fin t.length,
        (∑ j : Fin (t.length + 1),
          if (Fin.succ i) < j ∧
              Q ((x :: t).get (Fin.succ i)) ((x :: t).get j) = true
          then 1 else 0)
        = ∑ j : Fin t.length,
            if i < j ∧ Q (t.get i) (t.get j) = true then 1 else 0 := by
      intro i
      rw [Fin.sum_univ_succ]
      simp only [Fin.not_lt_zero, false_and, if_false,
        Fin.succ_lt_succ_iff, List.get_eq_getElem, Fin.val_succ,
        List.getElem_cons_succ, zero_add]
    rw [h0]
    congr 1
    rw [Finset.sum_congr rfl (fun i _ => hs i), ih]

theorem spec_overlap_count_eq (cfg : Config) (p : Placement) :
    specOverlapCount cfg p = pairCount (entOverlap cfg) p := by
  rw [specOverlapCount, Finset.card_filter, ← Finset.univ_product_univ,
    Finset.sum_product]
  exact double_sum_pairs p (entOverlap cfg)

theorem overlapTerm_eq (cfg : Config) (p : Placement) :
    overlapTerm cfg p = 10 * (pairCount (entOverlap cfg) p : ℚ) := by
  induction p with
  | nil => simp [overlapTerm, pairCount]
  | cons e t ih =>
    rw [overlapTerm, overlapRow, foldl_ite_add, ih, pairCount]
    push_cast
    ring

theorem wirelength_eq (cfg : Config) (p : Placement) :
    wirelength cfg p = specWirelength cfg p := by
  rw [wirelength, foldl_add_sum, specWirelength, zero_add]
  rfl

/-- Claim C2: the cost of a placement covering the module catalog is the
sum over all nets of the Manhattan distance between the two modules'
rectangle centers (position plus exact half-size) plus 10 for each
unordered pair of distinct modules whose rectangles overlap, each pair
counted exactly once; and a single net between a module at (0,0) of
size (2,2) and a module at (4,0) of size (2,2) contributes wirelength
exactly 4. -/
theorem cost_decomposition (cfg : Config) (p : Placement)
    (hcov : p.map Prod.fst = cfg.mods.map Prod.fst) :
    cost cfg p = specCost cfg p ∧ wirelength exCfg2 exP2 = 4 := by
  constructor
  · rw [cost, specCost, wirelength_eq, overlapTerm_eq, spec_overlap_count_eq]
  · simp [wirelength, exCfg2, exP2, netWL, center, mpos, msize, alookup]

/-- Witness for C2 at the repository's own catalog with every module at
the origin. -/
theorem cost_decomposition_witness :
    cost defaultConfig pD = specCost defaultConfig pD ∧
      wirelength exCfg2 exP2 = 4 :=
  cost_decomposition defaultConfig pD (by decide)

/-- Claim C3: the overlap test used by the cost function holds exactly
when `x1+w1 > x2 ∧ x2+w2 > x1 ∧ y1+h1 > y2 ∧ y2+h2 > y1`, so rectangles
that merely touch along an edge do not overlap; two 2×2 rectangles at
(0,0) and (2,0) contribute overlap penalty 0, while at (0,0) and (1,0)
they contribute exactly 10. -/
theorem overlap_test :
    (∀ (x1 y1 x2 y2 : ℤ) (w1 h1 w2 h2 : ℕ),
      rectOverlap x1 y1 w1 h1 x2 y2 w2 h2 = true ↔
        (x2 < x1 + w1 ∧ x1 < x2 + w2 ∧ y2 < y1 + h1 ∧ y1 < y2 + h2)) ∧
    overlapTerm exCfg3 pTouch = 0 ∧ overlapTerm exCfg3 pColl = 10 := by
  refine ⟨?_,
    by simp [overlapTerm, overlapRow, exCfg3, pTouch, entOverlap,
      rectOverlap, msize, alookup],
    by simp [overlapTerm, overlapRow, exCfg3, pColl, entOverlap,
      rectOverlap, msize, alookup]⟩
  intro x1 y1 x2 y2 w1 h1 w2 h2
  simp only [rectOverlap, Bool.not_eq_true', Bool.or_eq_false_iff,
    decide_eq_false_iff_not, not_le]
  tauto

theorem applyIter_T (cfg : Config) (cooling : ℚ) (s : SAState)
    (np : Placement) (b : Bool) :
    (applyIter cfg cooling s np b).T = s.T * cooling := by
  simp only [applyIter]
  split <;> split <;> rfl

theorem applyIter_bestCost_le (cfg : Config) (cooling : ℚ) (s : SAState)
    (np : Placement) (b : Bool) :
    (applyIter cfg cooling s np b).bestCost ≤ s.bestCost := by
  simp only [applyIter]
  split <;> split
  all_goals first
    | exact le_of_lt (by assumption)
    | exact le_refl _

theorem applyIter_history (cfg : Config) (cooling : ℚ) (s : SAState)
    (np : Placement) (b : Bool) :
    (applyIter cfg cooling s np b).history
      = s.history ++ [(applyIter cfg cooling s np b).bestCost] := by
  simp only [applyIter]
  split <;> split <;> rfl

theorem applyIter_placement (cfg : Config) (cooling : ℚ) (s : SAState)
    (np : Placement) (b : Bool) :
    (applyIter cfg cooling s np b).placement
      = if b then np else s.placement := by
  simp only [applyIter]
  split <;> split <;> rfl

theorem applyIter_best_cases (cfg : Config) (cooling : ℚ) (s : SAState)
    (np : Placement) (b : Bool) :
    (applyIter cfg cooling s np b).best = (if b then np else s.placement) ∨
    (applyIter cfg cooling s np b).best = s.best := by
  simp only [applyIter]
  split <;> split
  all_goals first
    | exact Or.inl rfl
    | exact Or.inr rfl

theorem applyIter_coherent (cfg : Config) (cooling : ℚ) (s : SAState)
    (np : Placement) (b : Bool) (h : s.bestCost = cost cfg s.best) :
    (applyIter cfg cooling s np b).bestCost
      = cost cfg (applyIter cfg cooling s np b).best := by
  simp only [applyIter]
  split <;> split
  all_goals first
    | rfl
    | exact h

theorem step_ok {cfg : Config} {cooling : ℚ} {r : IterRand} {s s1 : SAState}
    (h : Step cfg cooling r s (.ok s1)) :
    ∃ np b, random_move cfg s.placement r = some np ∧
      s1 = applyIter cfg cooling s np b := by
  cases h with
  | improve np hm _ => exact ⟨np, true, hm, rfl⟩
  | metAcc np hm _ _ _ => exact ⟨np, true, hm, rfl⟩
  | metRej np hm _ _ _ => exact ⟨np, false, hm, rfl⟩

theorem run_bestCost_le {cfg : Config} {cooling : ℚ} {s0 : SAState}
    {rs : List IterRand} {s : SAState} (h : Run cfg cooling s0 rs s) :
    s.bestCost ≤ s0.bestCost := by
  induction h with
  | nil => exact le_refl _
  | cons hstep _ ih =>
    obtain ⟨np, b, _, rfl⟩ := step_ok hstep
    exact le_trans ih (applyIter_bestCost_le _ _ _ _ _)

theorem run_T_pos {cfg : Config} {cooling : ℚ} {s0 : SAState}
    {rs : List IterRand} {s : SAState} (hc : 0 < cooling)
    (h : Run cfg cooling s0 rs s) : 0 < s0.T → 0 < s.T := by
  induction h with
  | nil => exact id
  | cons hstep _ ih =>
    intro h0
    obtain ⟨np, b, _, rfl⟩ := step_ok hstep
    exact ih (by rw [applyIter_T]; exact mul_pos h0 hc)

theorem run_coherent {cfg : Config} {cooling : ℚ} {s0 : SAState}
    {rs : List IterRand} {s : SAState} (h : Run cfg cooling s0 rs s) :
    s0.bestCost = cost cfg s0.best → s.bestCost = cost cfg s.best := by
  induction h with
  | nil => exact id
  | cons hstep _ ih =>
    intro h0
    obtain ⟨np, b, _, rfl⟩ := step_ok hstep
    exact ih (applyIter_coherent _ _ _ _ _ h0)

theorem applyIter_histInv (cfg : Config) (cooling : ℚ) (s : SAState)
    (np : Placement) (b : Bool) (h : HistInv s) :
    HistInv (applyIter cfg cooling s np b) := by
  obtain ⟨hchain, hle⟩ := h
  have hbc := applyIter_bestCost_le cfg cooling s np b
  have hh := applyIter_history cfg cooling s np b
  constructor
  · rw [hh]
    apply List.chain'_append.mpr
    refine ⟨hchain, List.chain'_singleton _, ?_⟩
    intro x hx y hy
    have hyv : (applyIter cfg cooling s np b).bestCost = y := by
      simpa using hy
    obtain ⟨hne, hxv⟩ := List.mem_getLast?_eq_getLast hx
    have hxmem : x ∈ s.history := hxv ▸ List.getLast_mem hne
    rw [← hyv]
    exact le_trans hbc (hle x hxmem)
  · rw [hh]
    intro x hx
    rcases List.mem_append.mp hx with hx | hx
    · exact le_trans hbc (hle x hx)
    · have hxv : x = (applyIter cfg cooling s np b).bestCost := by
        simpa using hx
      rw [hxv]

theorem run_hist {cfg : Config} {cooling : ℚ} {s0 : SAState}
    {rs : List IterRand} {s : SAState} (h : Run cfg cooling s0 rs s) :
    HistInv s0 →
      HistInv s ∧ s.history.length = s0.history.length + rs.length := by
  induction h with
  | nil => intro h0; exact ⟨h0, by simp⟩
  | cons hstep _ ih =>
    intro h0
    obtain ⟨np, b, _, rfl⟩ := step_ok hstep
    obtain ⟨hinv, hlen⟩ := ih (applyIter_histInv _ _ _ _ _ h0)
    refine ⟨hinv, ?_⟩
    rw [hlen, applyIter_history, List.length_append, List.length_singleton,
      List.length_cons]
    omega

theorem getD_eq_get (l : List ℚ) (i : ℕ) (h : i < l.length) :
    l.getD i 0 = l.get ⟨i, h⟩ := by
  induction l generalizing i with
  | nil => simp at h
  | cons a t ih =>
    cases i with
    | zero => rfl
    | succ n => exact ih n (Nat.lt_of_succ_lt_succ (by simpa using h))

/-- Claim C4: for every run of the annealing loop from its initial
state, the best-cost history has exactly one entry per iteration
(length equal to the iteration count) and is non-increasing:
`history[i+1] ≤ history[i]` for every valid index. -/
theorem history_monotone (cfg : Config) (cooling Tstart : ℚ)
    (p0 : Placement) (rs : List IterRand) (s : SAState)
    (hrun : Run cfg cooling (initState cfg Tstart p0) rs s) :
    s.history.length = rs.length ∧
    ∀ i : ℕ, i + 1 < s.history.length →
      s.history.getD (i + 1) 0 ≤ s.history.getD i 0 := by
  have h0 : HistInv (initState cfg Tstart p0) := by
    constructor <;> simp [initState, HistInv]
  obtain ⟨⟨hchain, _⟩, hlen⟩ := run_hist hrun h0
  simp only [initState, List.length_nil, zero_add] at hlen
  refine ⟨hlen, ?_⟩
  intro i hi
  have hc := List.chain'_iff_get.mp hchain i (by omega)
  rw [getD_eq_get s.history i (by omega), getD_eq_get s.history (i + 1) hi]
  exact hc

/-- Witness for C4: a concrete two-iteration run of the one-module
configuration produces a history of length 2 with
`history[1] ≤ history[0]`. -/
theorem history_monotone_witness :
    c4s2.history.length = 2 ∧
      c4s2.history.getD 1 0 ≤ c4s2.history.getD 0 0 := by
  have hp1 : c4s1.placement = wp1 := by
    show (applyIter wcfg1 1 (initState wcfg1 100 wp1) wp1 true).placement
      = wp1
    rw [applyIter_placement]
    rfl
  have hs1 : Step wcfg1 1 rAcc (initState wcfg1 100 wp1) (.ok c4s1) :=
    Step.metAcc wp1 (by decide) (lt_irrefl _)
      (by norm_num [initState])
      (by simp only [rAcc]; exact Real.exp_pos _)
  have hs2 : Step wcfg1 1 rAcc c4s1 (.ok c4s2) :=
    Step.metAcc wp1 (by rw [hp1]; decide) (by rw [hp1]; exact lt_irrefl _)
      (by show (applyIter wcfg1 1 (initState wcfg1 100 wp1) wp1 true).T ≠ 0
          rw [applyIter_T]; norm_num [initState])
      (by simp only [rAcc]; exact Real.exp_pos _)
  have hrun : Run wcfg1 1 (initState wcfg1 100 wp1) [rAcc, rAcc] c4s2 :=
    Run.cons hs1 (Run.cons hs2 (Run.nil c4s2))
  have h := history_monotone wcfg1 1 100 wp1 [rAcc, rAcc] c4s2 hrun
  exact ⟨h.1, h.2 0 (by rw [h.1]; simp)⟩

/-- Claim C7: the best cost after any run of the loop is at most the
cost of the initial randomly generated placement the run started
from. -/
theorem best_le_initial (cfg : Config) (cooling Tstart : ℚ)
    (d : ℕ → ℕ × ℕ) (p0 : Placement) (rs : List IterRand) (s : SAState)
    (hp0 : random_placement cfg d = some p0)
    (hrun : Run cfg cooling (initState cfg Tstart p0) rs s) :
    s.bestCost ≤ cost cfg p0 := by
  have h := run_bestCost_le hrun
  simpa [initState] using h

/-- Witness for C7 at the one-module configuration. -/
theorem best_le_initial_witness :
    (initState wcfg1 100 wp1).bestCost ≤ cost wcfg1 wp1 :=
  best_le_initial wcfg1 1 100 dZero wp1 [] (initState wcfg1 100 wp1)
    (by decide) (Run.nil _)

/-- Claim C10: at every state reachable by the loop from its initial
state, the tracked best cost equals the cost of the tracked best
placement; in particular this holds for the returned pair. -/
theorem best_cost_coherent (cfg : Config) (cooling Tstart : ℚ)
    (p0 : Placement) (rs : List IterRand) (s : SAState)
    (hrun : Run cfg cooling (initState cfg Tstart p0) rs s) :
    s.bestCost = cost cfg s.best :=
  run_coherent hrun (by simp [initState])

/-- Witness for C10 at the one-module configuration. -/
theorem best_cost_coherent_witness :
    (initState wcfg1 100 wp1).bestCost
      = cost wcfg1 (initState wcfg1 100 wp1).best :=
  best_cost_coherent wcfg1 1 100 wp1 [] (initState wcfg1 100 wp1)
    (Run.nil _)

/-- Claim C1: at any state reachable in a run with positive starting
temperature and positive cooling factor, an iteration with candidate
`np` installs the candidate exactly when `cost_new < cost_old`, or —
when `cost_new ≥ cost_old` — when the uniform draw is strictly less
than `exp((cost_old - cost_new) / T)`; otherwise the current placement
is kept for the next iteration. -/
theorem acceptance_rule (cfg : Config) (cooling Tstart : ℚ)
    (p0 : Placement) (rs : List IterRand) (r : IterRand) (s : SAState)
    (np : Placement) (res : StepRes)
    (hT : 0 < Tstart) (hcool : 0 < cooling)
    (hrun : Run cfg cooling (initState cfg Tstart p0) rs s)
    (hmv : random_move cfg s.placement r = some np) :
    Step cfg cooling r s res ↔
      (acceptSpec (cost cfg s.placement) (cost cfg np) s.T r.u ∧
        res = .ok (applyIter cfg cooling s np true)) ∨
      (¬ acceptSpec (cost cfg s.placement) (cost cfg np) s.T r.u ∧
        res = .ok (applyIter cfg cooling s np false)) := by
  have hTpos : 0 < s.T :=
    run_T_pos hcool hrun (by simpa [initState] using hT)
  constructor
  · intro hstep
    cases hstep with
    | moveErr hm => rw [hm] at hmv; exact Option.noConfusion hmv
    | improve np2 hm hlt =>
      obtain rfl : np2 = np := by rw [hm] at hmv; exact Option.some.inj hmv
      exact Or.inl ⟨Or.inl hlt, rfl⟩
    | expErr np2 hm hnlt hT0 => exact absurd hT0 (ne_of_gt hTpos)
    | metAcc np2 hm hnlt hTne hu =>
      obtain rfl : np2 = np := by rw [hm] at hmv; exact Option.some.inj hmv
      exact Or.inl ⟨Or.inr ⟨le_of_not_lt hnlt, hu⟩, rfl⟩
    | metRej np2 hm hnlt hTne hu =>
      obtain rfl : np2 = np := by rw [hm] at hmv; exact Option.some.inj hmv
      refine Or.inr ⟨?_, rfl⟩
      intro hacc
      simp only [acceptSpec] at hacc
      rcases hacc with h | ⟨hle, hu2⟩
      · exact hnlt h
      · exact hu hu2
  · rintro (⟨hacc, rfl⟩ | ⟨hnacc, rfl⟩)
    · simp only [acceptSpec] at hacc
      rcases hacc with hlt | ⟨hle, hu⟩
      · exact Step.improve np hmv hlt
      · exact Step.metAcc np hmv (not_lt.mpr hle) (ne_of_gt hTpos) hu
    · have hnlt : ¬ cost cfg np < cost cfg s.placement := fun h =>
        hnacc (Or.inl h)
      have hnu : ¬ r.u < Real.exp
          (((cost cfg s.placement - cost cfg np) / s.T : ℚ) : ℝ) :=
        fun h => hnacc (Or.inr ⟨le_of_not_lt hnlt, h⟩)
      exact Step.metRej np hmv hnlt (ne_of_gt hTpos) hnu

theorem alookup_cons {α : Type} (e : String × α) (t : List (String × α))
    (k : String) :
    alookup (e :: t) k = if e.1 = k then some e.2 else alookup t k := rfl

theorem alookup_map_update_ne {α : Type} (p : List (String × α))
    (m k : String) (xy : α) (hk : k ≠ m) :
    alookup (p.map (fun e => if e.1 = m then (e.1, xy) else e)) k
      = alookup p k := by
  induction p with
  | nil => rfl
  | cons e t ih =>
    rw [List.map_cons, alookup_cons, alookup_cons]
    by_cases he : e.1 = m
    · rw [if_pos he]
      by_cases hek : e.1 = k
      · exact absurd (hek.symm.trans he) hk
      · rw [if_neg hek, if_neg hek]
        exact ih
    · rw [if_neg he]
      by_cases hek : e.1 = k
      · rw [if_pos hek, if_pos hek]
      · rw [if_neg hek, if_neg hek]
        exact ih

theorem alookup_append_ne {α : Type} (p : List (String × α))
    (m k : String) (xy : α) (hk : k ≠ m) :
    alookup (p ++ [(m, xy)]) k = alookup p k := by
  induction p with
  | nil => simp [alookup, Ne.symm hk]
  | cons e t ih =>
    rw [List.cons_append, alookup_cons, alookup_cons]
    by_cases hek : e.1 = k
    · rw [if_pos hek, if_pos hek]
    · rw [if_neg hek, if_neg hek]
      exact ih

theorem dictInsert_lookup_ne (p : Placement) (m k : String) (xy : ℤ × ℤ)
    (hk : k ≠ m) : alookup (dictInsert p m xy) k = alookup p k := by
  rw [dictInsert]
  split
  · exact alookup_map_update_ne p m k xy hk
  · exact alookup_append_ne p m k xy hk

theorem alookup_nodup {α : Type} {l : List (String × α)}
    (hnd : (l.map Prod.fst).Nodup) {k : String} {v : α}
    (hmem : (k, v) ∈ l) : alookup l k = some v := by
  induction l with
  | nil => cases hmem
  | cons e t ih =>
    rw [List.map_cons, List.nodup_cons] at hnd
    rw [alookup_cons]
    rcases List.mem_cons.mp hmem with heq | hmem2
    · obtain rfl := heq.symm
      simp
    · by_cases hek : e.1 = k
      · exfalso
        apply hnd.1
        rw [hek]
        exact List.mem_map_of_mem Prod.fst hmem2
      · rw [if_neg hek]
        exact ih hnd.2 hmem2

theorem alookup_isSome_of_mem {α : Type} (p : List (String × α))
    (k : String) (hk : k ∈ p.map Prod.fst) : (alookup p k).isSome := by
  induction p with
  | nil => simp at hk
  | cons e t ih =>
    rw [alookup_cons]
    by_cases hek : e.1 = k
    · rw [if_pos hek]
      rfl
    · rw [if_neg hek]
      rw [List.map_cons, List.mem_cons] at hk
      rcases hk with hk | hk
      · exact absurd hk.symm hek
      · exact ih hk

theorem randint_bounds {hi : ℤ} {d : ℕ} {x : ℤ}
    (h : randint hi d = some x) : 0 ≤ x ∧ x ≤ hi := by
  simp only [randint] at h
  split at h
  · exact Option.noConfusion h
  · rename_i hge
    obtain rfl := Option.some.inj h
    have hpos : (0 : ℤ) < hi + 1 := by omega
    refine ⟨Int.emod_nonneg _ (by omega), ?_⟩
    have := Int.emod_lt_of_pos (d : ℤ) hpos
    omega

theorem placeLoop_ok (cfg : Config) (d : ℕ → ℕ × ℕ)
    (ms : List (String × ℕ × ℕ)) (i : ℕ)
    (herr : (placeLoop cfg d ms i).2 = false) :
    (placeLoop cfg d ms i).1.map Prod.fst = ms.map Prod.fst ∧
    ∀ pe ∈ (placeLoop cfg d ms i).1, ∃ e, e ∈ ms ∧ e.1 = pe.1 ∧
      0 ≤ pe.2.1 ∧ pe.2.1 ≤ (cfg.chipW : ℤ) - e.2.1 ∧
      0 ≤ pe.2.2 ∧ pe.2.2 ≤ (cfg.chipH : ℤ) - e.2.2 := by
  induction ms generalizing i with
  | nil => simp [placeLoop]
  | cons e rest ih =>
    cases hx : randint ((cfg.chipW : ℤ) - e.2.1) (d i).1 with
    | none => simp [placeLoop, hx] at herr
    | some x =>
      cases hy : randint ((cfg.chipH : ℤ) - e.2.2) (d i).2 with
      | none => simp [placeLoop, hx, hy] at herr
      | some y =>
        simp only [placeLoop, hx, hy] at herr ⊢
        obtain ⟨hkeys, hmem⟩ := ih (i + 1) herr
        obtain ⟨hx1, hx2⟩ := randint_bounds hx
        obtain ⟨hy1, hy2⟩ := randint_bounds hy
        constructor
        · rw [List.map_cons, List.map_cons, hkeys]
        · intro pe hpe
          rcases List.mem_cons.mp hpe with hpe | hpe
          · exact ⟨e, List.mem_cons_self e rest, by rw [hpe],
              by rw [hpe]; exact hx1, by rw [hpe]; exact hx2,
              by rw [hpe]; exact hy1, by rw [hpe]; exact hy2⟩
          · obtain ⟨e2, he2, hrest⟩ := hmem pe hpe
            exact ⟨e2, List.mem_cons_of_mem e he2, hrest⟩

theorem random_placement_wf (cfg : Config)
    (hnd : (cfg.mods.map Prod.fst).Nodup) (d : ℕ → ℕ × ℕ)
    (p : Placement) (h : random_placement cfg d = some p) : WF cfg p := by
  simp only [random_placement] at h
  split at h
  · exact Option.noConfusion h
  · rename_i herr
    obtain rfl := Option.some.inj h
    obtain ⟨hkeys, hmem⟩ :=
      placeLoop_ok cfg d cfg.mods 0 (by simpa using herr)
    refine ⟨hkeys, ?_⟩
    intro pe hpe
    obtain ⟨e, hemem, hkey, hx1, hx2, hy1, hy2⟩ := hmem pe hpe
    have hin : (pe.1, e.2) ∈ cfg.mods := by
      rw [← hkey]
      exact hemem
    have hsz : msize cfg pe.1 = e.2 := by
      rw [msize, alookup_nodup hnd hin]
      rfl
    simp only [InBounds, hsz]
    exact ⟨hx1, hx2, hy1, hy2⟩

theorem random_move_wf (cfg : Config)
    (hnd : (cfg.mods.map Prod.fst).Nodup) (p : Placement) (r : IterRand)
    (p2 : Placement) (hwf : WF cfg p) (h : random_move cfg p r = some p2) :
    WF cfg p2 := by
  simp only [random_move] at h
  rw [Option.bind_eq_some] at h
  obtain ⟨e, hg, h⟩ := h
  rw [Option.bind_eq_some] at h
  obtain ⟨x, hx, h⟩ := h
  rw [Option.map_eq_some'] at h
  obtain ⟨y, hy, rfl⟩ := h
  have hmem : e ∈ cfg.mods := List.get?_mem hg
  have hkmem : e.1 ∈ p.map Prod.fst := by
    rw [hwf.1]
    exact List.mem_map_of_mem Prod.fst hmem
  have hsome := alookup_isSome_of_mem p e.1 hkmem
  rw [dictInsert, if_pos hsome]
  constructor
  · rw [List.map_map]
    have hcomp : (Prod.fst ∘ fun e2 : String × ℤ × ℤ =>
        if e2.1 = e.1 then (e2.1, (x, y)) else e2) = Prod.fst := by
      funext e2
      by_cases he2 : e2.1 = e.1 <;> simp [he2]
    rw [hcomp, hwf.1]
  · intro pe hpe
    obtain ⟨e2, he2mem, he2eq⟩ := List.mem_map.mp hpe
    by_cases hm : e2.1 = e.1
    · rw [if_pos hm] at he2eq
      have hin : (pe.1, e.2) ∈ cfg.mods := by
        rw [← he2eq, hm]
        exact hmem
      have hsz : msize cfg pe.1 = e.2 := by
        rw [msize, alookup_nodup hnd hin]
        rfl
      simp only [InBounds, hsz]
      rw [← he2eq]
      obtain ⟨hx1, hx2⟩ := randint_bounds hx
      obtain ⟨hy1, hy2⟩ := randint_bounds hy
      exact ⟨hx1, hx2, hy1, hy2⟩
    · rw [if_neg hm] at he2eq
      rw [← he2eq]
      exact hwf.2 e2 he2mem

theorem step_wf (cfg : Config) (hnd : (cfg.mods.map Prod.fst).Nodup)
    (cooling : ℚ) (r : IterRand) (s s1 : SAState) (hwf : WFState cfg s)
    (h : Step cfg cooling r s (.ok s1)) : WFState cfg s1 := by
  obtain ⟨np, b, hm, rfl⟩ := step_ok h
  have hnp : WF cfg np := random_move_wf cfg hnd s.placement r np hwf.1 hm
  have hplace : WF cfg (applyIter cfg cooling s np b).placement := by
    rw [applyIter_placement]
    cases b
    · simpa using hwf.1
    · simpa using hnp
  refine ⟨hplace, ?_⟩
  rcases applyIter_best_cases cfg cooling s np b with hb | hb
  · rw [hb]
    cases b
    · simpa using hwf.1
    · simpa using hnp
  · rw [hb]
    exact hwf.2

/-- Claim C5: every placement produced by initialization or by a move
has exactly one entry per catalog module with in-bounds coordinates
(`0 ≤ x ≤ chipW - w`, `0 ≤ y ≤ chipH - h`), and this well-formedness is
preserved by every successful iteration of a run. -/
theorem placement_wellformed (cfg : Config)
    (hnd : (cfg.mods.map Prod.fst).Nodup) :
    (∀ (d : ℕ → ℕ × ℕ) (p : Placement),
      random_placement cfg d = some p → WF cfg p) ∧
    (∀ (p : Placement) (r : IterRand) (p2 : Placement),
      WF cfg p → random_move cfg p r = some p2 → WF cfg p2) ∧
    (∀ (cooling : ℚ) (r : IterRand) (s s1 : SAState),
      WFState cfg s → Step cfg cooling r s (.ok s1) → WFState cfg s1) :=
  ⟨fun d p h => random_placement_wf cfg hnd d p h,
   fun p r p2 hwf h => random_move_wf cfg hnd p r p2 hwf h,
   fun cooling r s s1 hwf h => step_wf cfg hnd cooling r s s1 hwf h⟩

/-- Witness for C5: the all-zero initial placement drawn on the
repository's own catalog is well-formed. -/
theorem placement_wellformed_witness : WF defaultConfig pD :=
  (placement_wellformed defaultConfig (by decide)).1 dZero pD (by decide)

/-- Claim C6: a successful move changes at most one module: there is a
module name such that every other module keeps its exact coordinates
(and the input placement, being a value, is left unchanged). -/
theorem move_frame (cfg : Config) (p : Placement) (r : IterRand)
    (p2 : Placement) (h : random_move cfg p r = some p2) :
    ∃ m : String, ∀ k : String, k ≠ m → alookup p2 k = alookup p k := by
  simp only [random_move] at h
  rw [Option.bind_eq_some] at h
  obtain ⟨e, hg, h⟩ := h
  rw [Option.bind_eq_some] at h
  obtain ⟨x, hx, h⟩ := h
  rw [Option.map_eq_some'] at h
  obtain ⟨y, hy, rfl⟩ := h
  exact ⟨e.1, fun k hk => dictInsert_lookup_ne p e.1 k (x, y) hk⟩

/-- Witness for C6: moving module B of the repository's catalog leaves
every other module's coordinates unchanged. -/
theorem move_frame_witness :
    ∃ m : String, ∀ k : String, k ≠ m → alookup pD2 k = alookup pD k :=
  move_frame defaultConfig pD r6 pD2 (by decide)

/-- Witness for C1: at the one-module configuration the equal-cost
candidate with uniform draw 0 is accepted. -/
theorem acceptance_rule_witness :
    Step wcfg1 1 rAcc (initState wcfg1 100 wp1)
      (.ok (applyIter wcfg1 1 (initState wcfg1 100 wp1) wp1 true)) := by
  apply (acceptance_rule wcfg1 1 100 wp1 [] rAcc (initState wcfg1 100 wp1)
    wp1 (.ok (applyIter wcfg1 1 (initState wcfg1 100 wp1) wp1 true))
    (by norm_num) (by norm_num) (Run.nil _) (by decide)).mpr
  refine Or.inl ⟨Or.inr ⟨le_refl _, ?_⟩, rfl⟩
  simp only [rAcc]
  exact Real.exp_pos _

theorem placeLoop_oversized (cfg : Config) (d : ℕ → ℕ × ℕ)
    (ms : List (String × ℕ × ℕ)) (i : ℕ)
    (h : ∃ e ∈ ms, cfg.chipW < e.2.1 ∨ cfg.chipH < e.2.2) :
    (placeLoop cfg d ms i).2 = true := by
  induction ms generalizing i with
  | nil =>
    obtain ⟨e, he, _⟩ := h
    cases he
  | cons e rest ih =>
    by_cases hw : cfg.chipW < e.2.1
    · have hx : randint ((cfg.chipW : ℤ) - e.2.1) (d i).1 = none := by
        simp only [randint]
        rw [if_pos (by omega)]
      simp [placeLoop, hx]
    · by_cases hh : cfg.chipH < e.2.2
      · have hy : randint ((cfg.chipH : ℤ) - e.2.2) (d i).2 = none := by
          simp only [randint]
          rw [if_pos (by omega)]
        cases hx : randint ((cfg.chipW : ℤ) - e.2.1) (d i).1 with
        | none => simp [placeLoop, hx]
        | some x => simp [placeLoop, hx, hy]
      · have hrest : ∃ e2 ∈ rest, cfg.chipW < e2.2.1 ∨ cfg.chipH < e2.2.2 := by
          obtain ⟨e2, he2, hor⟩ := h
          rcases List.mem_cons.mp he2 with rfl | he2r
          · rcases hor with h1 | h1
            · exact absurd h1 hw
            · exact absurd h1 hh
          · exact ⟨e2, he2r, hor⟩
        have hx : randint ((cfg.chipW : ℤ) - e.2.1) (d i).1
            = some (((d i).1 : ℤ) % ((cfg.chipW : ℤ) - e.2.1 + 1)) := by
          simp only [randint]
          rw [if_neg (by omega)]
        have hy : randint ((cfg.chipH : ℤ) - e.2.2) (d i).2
            = some (((d i).2 : ℤ) % ((cfg.chipH : ℤ) - e.2.2 + 1)) := by
          simp only [randint]
          rw [if_neg (by omega)]
        simp only [placeLoop, hx, hy]
        exact ih (i + 1) hrest

/-- Claim C9 (amended): an oversized module is detected, but only when
`random_placement` reaches it: every draw stream makes initialization
fail with the `ValueError` of `randint` (modelled `none`), so no
iteration ever runs — there is no upfront configuration check before
initialization starts placing modules. -/
theorem oversized_init_fails (cfg : Config) (h : Oversized cfg)
    (d : ℕ → ℕ × ℕ) : random_placement cfg d = none := by
  simp only [random_placement]
  rw [placeLoop_oversized cfg d cfg.mods 0 h]
  rfl

/-- Witness for the amended C9: the two-module configuration whose
second module is 30 wide fails initialization on every draw. -/
theorem oversized_init_fails_witness : random_placement cfg9 dZero = none :=
  oversized_init_fails cfg9
    ⟨("B", (30, 1)), by decide, Or.inl (by decide)⟩ dZero

/-- Counterexample for C9: on the configuration whose second module is
wider than the chip, the failure is raised mid-initialization — module
A has already been drawn and placed at (0, 0) when the error occurs —
refuting the claim that the error is raised before the run starts and
not discovered during initialization. -/
theorem oversized_midinit_cex :
    random_placement cfg9 dZero = none ∧
      (placeLoop cfg9 dZero cfg9.mods 0).1 = [("A", (0, 0))] := by
  constructor
  · decide
  · decide

/-- Claim C8 (amended): with cooling factor 0 the temperature is 0
after any iteration, in particular the first; from a `T = 0` state an
iteration can only install a strictly improving candidate, and whenever
the candidate does not strictly improve, the evaluation of
`math.exp((c_old - c_new)/T)` raises ZeroDivisionError (modelled
`.err`) instead of accepting or rejecting. -/
theorem t0_greedy (cfg : Config) (r : IterRand) (s : SAState) :
    (∀ s1 : SAState, Step cfg 0 r s (.ok s1) → s1.T = 0) ∧
    (s.T = 0 →
      (∀ s1 : SAState, Step cfg 0 r s (.ok s1) →
        ∃ np, random_move cfg s.placement r = some np ∧
          cost cfg np < cost cfg s.placement ∧
          s1 = applyIter cfg 0 s np true) ∧
      (∀ np, random_move cfg s.placement r = some np →
        ¬ cost cfg np < cost cfg s.placement →
        ∀ res : StepRes, Step cfg 0 r s res → res = .err)) := by
  refine ⟨?_, fun hT => ⟨?_, ?_⟩⟩
  · intro s1 h
    obtain ⟨np, b, _, rfl⟩ := step_ok h
    rw [applyIter_T, mul_zero]
  · intro s1 h
    cases h with
    | improve np hm hlt => exact ⟨np, hm, hlt, rfl⟩
    | metAcc np hm hnlt hTne hu => exact absurd hT hTne
    | metRej np hm hnlt hTne hu => exact absurd hT hTne
  · intro np hm hnlt res h
    cases h with
    | moveErr hm2 => rfl
    | improve np2 hm2 hlt =>
      have hnp : np2 = np := by
        rw [hm] at hm2
        exact (Option.some.inj hm2).symm
      rw [hnp] at hlt
      exact absurd hlt hnlt
    | expErr np2 hm2 hnlt2 hT0 => rfl
    | metAcc np2 hm2 hnlt2 hTne hu => exact absurd hT hTne
    | metRej np2 hm2 hnlt2 hTne hu => exact absurd hT hTne

/-- Witness for the amended C8: at a concrete `T = 0` state of the
one-module configuration the equal-cost candidate cannot be accepted. -/
theorem t0_greedy_witness :
    ¬ Step wcfg1 0 rRej c8sT0 (.ok (applyIter wcfg1 0 c8sT0 wp1 true)) := by
  intro h
  obtain ⟨np, hm, hlt, _⟩ := ((t0_greedy wcfg1 rRej c8sT0).2 rfl).1 _ h
  have hmv : random_move wcfg1 c8sT0.placement rRej = some wp1 := by decide
  have hnp : np = wp1 := by
    rw [hmv] at hm
    exact (Option.some.inj hm).symm
  rw [hnp] at hlt
  exact absurd hlt (lt_irrefl _)

/-- Counterexample for C8: a cooling-0 run on the one-module
configuration rejects the (equal-cost) candidate of its first
iteration, leaving the temperature at exactly 0; the second iteration
then reaches `math.exp((c_old - c_new)/T)` with `T = 0` and raises
ZeroDivisionError (modelled `.err`), refuting the part of the claim
that says the acceptance computation at `T = 0` raises no error. -/
theorem t0_div_error_cex :
    Step wcfg1 0 rRej c8s0 (.ok c8s1) ∧ Step wcfg1 0 rRej c8s1 .err := by
  have hmv0 : random_move wcfg1 c8s0.placement rRej = some wp1 := by decide
  have hnlt : ¬ cost wcfg1 wp1 < cost wcfg1 c8s0.placement := lt_irrefl _
  constructor
  · refine Step.metRej wp1 hmv0 hnlt ?_ ?_
    · norm_num [c8s0, initState]
    · have harg : ((cost wcfg1 c8s0.placement - cost wcfg1 wp1)
          / c8s0.T : ℚ) = 0 := by
        simp [c8s0, initState]
      rw [harg]
      simp only [rRej]
      rw [Rat.cast_zero, Real.exp_zero]
      exact lt_irrefl 1
  · have hT1 : c8s1.T = 0 := by
      show (applyIter wcfg1 0 c8s0 wp1 false).T = 0
      rw [applyIter_T, mul_zero]
    have hplace1 : c8s1.placement = wp1 := by
      show (applyIter wcfg1 0 c8s0 wp1 false).placement = wp1
      rw [applyIter_placement]
      rfl
    refine Step.expErr wp1 ?_ ?_ hT1
    · rw [hplace1]
      decide
    · rw [hplace1]
      exact lt_irrefl _

end VLSISA
